import Mathlib

/-!
Shallow embedding of the TTL cache implemented in
`tauri-dashboard/src-tauri/src/cache.rs` (`Cache<T>` and its methods).

Modelling choices:
* The `HashMap<String, CacheEntry<T>>` is modelled as an association list
  `List (String × CacheEntry T)`.  The reachable states have no duplicate
  keys; this is captured by the predicate `Cache.Wf` and proved invariant.
  `HashMap::insert` replaces the value stored under an existing key, so
  insertion conses the fresh pair and erases any old pair with that key.
* `DateTime<Utc>` timestamps are natural numbers (seconds).  Each method
  that calls `Utc::now()` takes the current instant `now : Nat` as an
  explicit argument; the two `Utc::now()` calls inside `set_with_ttl`
  (one for `expires_at`, one for `created_at`) are modelled as the same
  instant.
* `HashMap` iteration order is unspecified, so Rust's `min_by_key` returns
  the first minimal element of an arbitrary order.  The model folds from
  the left keeping the earlier of two entries with equal `created_at`,
  one admissible deterministic tie-break; theorems about the evicted
  entry only use its minimality, which is tie-break independent.
* The `f64` hit rate of `get_stats` is modelled as an exact rational
  number; `memory_size_bytes` (a `size_of`-based heuristic explicitly
  documented as approximate) concerns memory layout and is not modelled.
-/

namespace Yesman

/-- `CacheEntry<T>` from cache.rs: a value plus `created_at` and an
optional absolute expiry instant (`None` = never expires). -/
structure CacheEntry (T : Type) where
  data : T
  created_at : Nat
  expires_at : Option Nat
  deriving Repr, DecidableEq

/-- The statistics snapshot `CacheStats` (without the unmodelled
`memory_size_bytes` field). -/
structure CacheStats where
  total_entries : Nat
  hits : Nat
  misses : Nat
  evictions : Nat
  hit_rate : ℚ
  deriving Repr, DecidableEq

/-- `Cache<T>` from cache.rs: the key→entry map, the three counters and
the two configuration scalars. -/
structure Cache (T : Type) where
  data : List (String × CacheEntry T)
  hits : Nat
  misses : Nat
  evictions : Nat
  max_entries : Nat
  default_ttl_seconds : Nat
  deriving Repr, DecidableEq

variable {T : Type}

/-- `HashMap::get` on the association-list model: the value stored under
the first (and, in well-formed states, only) pair with the given key. -/
def lookupKey (k : String) : List (String × CacheEntry T) → Option (CacheEntry T)
  | [] => none
  | (k', e) :: rest => if k' = k then some e else lookupKey k rest

/-- `HashMap::remove` on the association-list model (drops every pair
with the given key; in well-formed states there is at most one). -/
def eraseKey (k : String) : List (String × CacheEntry T) → List (String × CacheEntry T)
  | [] => []
  | (k', e) :: rest => if k' = k then eraseKey k rest else (k', e) :: eraseKey k rest

/-- `HashMap::insert` on the association-list model: store the fresh
entry and drop any previous pair with the same key. -/
def insertEntry (k : String) (e : CacheEntry T) (l : List (String × CacheEntry T)) :
    List (String × CacheEntry T) :=
  (k, e) :: eraseKey k l

/-- The expiry test used by both `get` and `cleanup_expired`:
`Utc::now() > expires_at`, strictly. -/
def isExpired (now : Nat) (e : CacheEntry T) : Bool :=
  match e.expires_at with
  | some exp => decide (exp < now)
  | none => false

/-- One step of Rust's `Iterator::min_by_key` fold: keep the current best
unless the next entry is strictly older. -/
def minStep (best p : String × CacheEntry T) : String × CacheEntry T :=
  if p.2.created_at < best.2.created_at then p else best

/-- `data.iter().min_by_key(|(_, entry)| entry.created_at)`:
first minimal entry of the (modelled) iteration order. -/
def minByCreated : List (String × CacheEntry T) → Option (String × CacheEntry T)
  | [] => none
  | x :: xs => some (xs.foldl minStep x)

/-- The keys of the map, in order. -/
def keys (l : List (String × CacheEntry T)) : List String := l.map Prod.fst

/-- `Cache::new(max_entries, default_ttl_seconds)`. -/
def Cache.new (max_entries default_ttl_seconds : Nat) : Cache T :=
  { data := [], hits := 0, misses := 0, evictions := 0,
    max_entries := max_entries, default_ttl_seconds := default_ttl_seconds }

/-- `Cache::get(key)` at instant `now`: returns the result and the
updated cache.  On a present expired entry it removes the entry and
counts a miss (the Rust code calls `self.remove`, which touches no
counter, then increments `misses`); on a present live entry it counts a
hit and returns a clone of the data; on an absent key it counts a miss. -/
def Cache.get (c : Cache T) (key : String) (now : Nat) : Option T × Cache T :=
  match lookupKey key c.data with
  | some entry =>
    match entry.expires_at with
    | some exp =>
      if exp < now then
        (none, { c with data := eraseKey key c.data, misses := c.misses + 1 })
      else
        (some entry.data, { c with hits := c.hits + 1 })
    | none => (some entry.data, { c with hits := c.hits + 1 })
  | none => (none, { c with misses := c.misses + 1 })

/-- `Cache::set_with_ttl(key, value, ttl_seconds)` at instant `now`.
If the map is at or above `max_entries` and the key is not present, the
entry with minimal `created_at` (if any) is removed and `evictions` is
incremented; then the fresh entry (TTL `0` meaning no expiry) is
inserted. -/
def Cache.set_with_ttl (c : Cache T) (key : String) (value : T) (ttl_seconds : Option Nat)
    (now : Nat) : Cache T :=
  let afterEvict : List (String × CacheEntry T) × Nat :=
    if c.max_entries ≤ c.data.length ∧ (lookupKey key c.data).isNone = true then
      match minByCreated c.data with
      | some p => (eraseKey p.1 c.data, c.evictions + 1)
      | none => (c.data, c.evictions)
    else (c.data, c.evictions)
  let ttl := ttl_seconds.getD c.default_ttl_seconds
  let expires_at : Option Nat := if 0 < ttl then some (now + ttl) else none
  { c with
    data := insertEntry key ⟨value, now, expires_at⟩ afterEvict.1,
    evictions := afterEvict.2 }

/-- `Cache::set(key, value)` = `set_with_ttl(key, value, None)`. -/
def Cache.set (c : Cache T) (key : String) (value : T) (now : Nat) : Cache T :=
  c.set_with_ttl key value none now

/-- `Cache::remove(key)`: returns the stored value (if any) and the
cache with the key dropped; no counter is touched. -/
def Cache.remove (c : Cache T) (key : String) : Option T × Cache T :=
  ((lookupKey key c.data).map CacheEntry.data, { c with data := eraseKey key c.data })

/-- `Cache::clear()`: drops every entry, counters untouched. -/
def Cache.clear (c : Cache T) : Cache T :=
  { c with data := [] }

/-- The keys collected by the scan loop of `cleanup_expired`. -/
def expiredKeys (now : Nat) (l : List (String × CacheEntry T)) : List String :=
  keys (l.filter fun p => isExpired now p.2)

/-- The body of the removal loop of `cleanup_expired`: remove one
collected key and increment `evictions`. -/
def cleanStep (a : Cache T) (k : String) : Cache T :=
  { a with data := eraseKey k a.data, evictions := a.evictions + 1 }

/-- `Cache::cleanup_expired()` at instant `now`: collect every expired
key, then for each one remove it and increment `evictions` (the Rust
loop increments once per collected key). -/
def Cache.cleanup_expired (c : Cache T) (now : Nat) : Cache T :=
  (expiredKeys now c.data).foldl cleanStep c

/-- `Cache::get_stats()`: snapshot of count, counters and hit rate
(`hits / (hits + misses) * 100`, or `0` when there were no requests). -/
def Cache.get_stats (c : Cache T) : CacheStats :=
  let total_requests := c.hits + c.misses
  { total_entries := c.data.length
    hits := c.hits
    misses := c.misses
    evictions := c.evictions
    hit_rate := if 0 < total_requests then ((c.hits : ℚ) / (total_requests : ℚ)) * 100 else 0 }

/-- Well-formedness of a cache state: the map has no duplicate keys.
This holds for `Cache.new` and is preserved by every operation. -/
def Cache.Wf (c : Cache T) : Prop := (keys c.data).Nodup

instance (c : Cache T) : Decidable c.Wf :=
  inferInstanceAs (Decidable ((keys c.data).Nodup))

/-- The externally visible operations of the cache, with the instants at
which the time-dependent ones are invoked. -/
inductive Op (T : Type) where
  | get (key : String) (now : Nat)
  | set (key : String) (value : T) (now : Nat)
  | set_with_ttl (key : String) (value : T) (ttl_seconds : Option Nat) (now : Nat)
  | remove (key : String)
  | clear
  | cleanup_expired (now : Nat)

/-- Apply one operation to the cache state (discarding returned values). -/
def Cache.step (c : Cache T) : Op T → Cache T
  | .get k now => (c.get k now).2
  | .set k v now => c.set k v now
  | .set_with_ttl k v t now => c.set_with_ttl k v t now
  | .remove k => (c.remove k).2
  | .clear => c.clear
  | .cleanup_expired now => c.cleanup_expired now

/-- Apply a sequence of operations from left to right. -/
def Cache.run (c : Cache T) (ops : List (Op T)) : Cache T :=
  ops.foldl Cache.step c

/-- The repeated `HashMap::remove` of the cleanup loop, on the map alone. -/
def eraseAll (ks : List String) (l : List (String × CacheEntry T)) :
    List (String × CacheEntry T) :=
  ks.foldl (fun d k => eraseKey k d) l

/-- Whether a `get` at instant `now` will count a hit: the key is
present and the entry is not expired. -/
def hitp (c : Cache T) (k : String) (now : Nat) : Bool :=
  match lookupKey k c.data with
  | some e => !(isExpired now e)
  | none => false

/-- The `expires_at` computed by `set_with_ttl`: effective TTL `0`
means no expiry. -/
def expiresOf (c : Cache T) (ttl_seconds : Option Nat) (now : Nat) : Option Nat :=
  if 0 < ttl_seconds.getD c.default_ttl_seconds then
    some (now + ttl_seconds.getD c.default_ttl_seconds)
  else none

/-- The contribution of one operation to `hits`. -/
def hitDelta (c : Cache T) : Op T → Nat
  | .get k now => if hitp c k now then 1 else 0
  | _ => 0

/-- The contribution of one operation to `misses`. -/
def missDelta (c : Cache T) : Op T → Nat
  | .get k now => if hitp c k now then 0 else 1
  | _ => 0

/-- Running total of hits produced by an operation sequence. -/
def countHits (c : Cache T) : List (Op T) → Nat
  | [] => 0
  | op :: ops => hitDelta c op + countHits (c.step op) ops

/-- Running total of misses produced by an operation sequence. -/
def countMisses (c : Cache T) : List (Op T) → Nat
  | [] => 0
  | op :: ops => missDelta c op + countMisses (c.step op) ops

/-- Tests whether an operation is a read (`get`) or a cleanup sweep
(`cleanup_expired`) — the operations expiry logic consists of. -/
def readOrCleanup : Op T → Bool
  | .get _ _ => true
  | .cleanup_expired _ => true
  | _ => false

/-- An insertion request: key, value, optional TTL override and the
instant of the call. -/
structure Ins (T : Type) where
  key : String
  value : T
  ttl_seconds : Option Nat
  now : Nat

/-- Run a sequence of `set_with_ttl` insertions (a plain `set` is the
`ttl_seconds = none` case). -/
def runInserts (c : Cache T) : List (Ins T) → Cache T
  | [] => c
  | i :: rest => runInserts (c.set_with_ttl i.key i.value i.ttl_seconds i.now) rest

/-- How many insertions of the list target a key that differs from the
single key stored just before them; the first argument is the currently
stored key (`none` for an empty cache). -/
def countSwitches : Option String → List (Ins T) → Nat
  | _, [] => 0
  | none, i :: rest => countSwitches (some i.key) rest
  | some k0, i :: rest => (if i.key = k0 then 0 else 1) + countSwitches (some i.key) rest

/-! ### Association-list lemmas -/

lemma lookupKey_eraseKey (k k' : String) (l : List (String × CacheEntry T)) :
    lookupKey k (eraseKey k' l) = if k = k' then none else lookupKey k l := by
  induction l with
  | nil => simp [eraseKey, lookupKey]
  | cons p rest ih =>
    obtain ⟨k₁, e⟩ := p
    by_cases h1 : k₁ = k' <;> by_cases h2 : k₁ = k <;>
      simp_all [eraseKey, lookupKey]

lemma mem_keys_iff (k : String) (l : List (String × CacheEntry T)) :
    k ∈ keys l ↔ ∃ e, (k, e) ∈ l := by
  simp [keys, List.mem_map, Prod.exists]

lemma lookupKey_eq_some_of_mem (k : String) (e : CacheEntry T)
    (l : List (String × CacheEntry T)) (hnd : (keys l).Nodup) (hmem : (k, e) ∈ l) :
    lookupKey k l = some e := by
  induction l with
  | nil => cases hmem
  | cons p rest ih =>
    obtain ⟨k₁, e₁⟩ := p
    simp only [keys, List.map_cons, List.nodup_cons] at hnd
    rcases List.mem_cons.mp hmem with h | h
    · obtain ⟨rfl, rfl⟩ := Prod.mk.injEq .. ▸ h
      simp [lookupKey]
    · have hk : k₁ ≠ k := by
        rintro rfl
        exact hnd.1 ((mem_keys_iff _ _).mpr ⟨e, h⟩)
      simp only [lookupKey, if_neg hk]
      exact ih hnd.2 h

lemma mem_of_lookupKey_eq_some (k : String) (e : CacheEntry T)
    (l : List (String × CacheEntry T)) (h : lookupKey k l = some e) : (k, e) ∈ l := by
  induction l with
  | nil => simp [lookupKey] at h
  | cons p rest ih =>
    obtain ⟨k₁, e₁⟩ := p
    simp only [lookupKey] at h
    split at h
    · next heq =>
      injection h with h2
      subst heq; subst h2
      exact List.mem_cons_self _ _
    · exact List.mem_cons_of_mem _ (ih h)

lemma lookupKey_eq_none_iff (k : String) (l : List (String × CacheEntry T)) :
    lookupKey k l = none ↔ k ∉ keys l := by
  induction l with
  | nil => simp [lookupKey, keys]
  | cons p rest ih =>
    obtain ⟨k₁, e₁⟩ := p
    simp only [lookupKey, keys, List.map_cons, List.mem_cons]
    by_cases hk : k₁ = k
    · simp [hk]
    · simp only [if_neg hk, ih, keys]
      constructor
      · intro h hmem
        rcases hmem with h1 | h1
        · exact hk h1.symm
        · exact h h1
      · exact fun h hm => h (Or.inr hm)

lemma mem_keys_eraseKey (k k' : String) (l : List (String × CacheEntry T)) :
    k ∈ keys (eraseKey k' l) ↔ k ≠ k' ∧ k ∈ keys l := by
  induction l with
  | nil => simp [eraseKey, keys]
  | cons p rest ih =>
    obtain ⟨k₁, e₁⟩ := p
    by_cases h1 : k₁ = k' <;> by_cases h2 : k₁ = k
    all_goals simp_all [eraseKey, keys]
    all_goals tauto

lemma nodup_keys_eraseKey (k : String) (l : List (String × CacheEntry T))
    (hnd : (keys l).Nodup) : (keys (eraseKey k l)).Nodup := by
  induction l with
  | nil => simp [eraseKey, keys]
  | cons p rest ih =>
    obtain ⟨k₁, e₁⟩ := p
    simp only [keys, List.map_cons, List.nodup_cons] at hnd
    by_cases h1 : k₁ = k
    · simp only [eraseKey, if_pos h1]
      exact ih hnd.2
    · simp only [eraseKey, if_neg h1, keys, List.map_cons, List.nodup_cons]
      refine ⟨fun hmem => ?_, ih hnd.2⟩
      exact hnd.1 ((mem_keys_eraseKey _ _ _).mp hmem).2

lemma eraseKey_eq_self_of_not_mem (k : String) (l : List (String × CacheEntry T))
    (h : k ∉ keys l) : eraseKey k l = l := by
  induction l with
  | nil => rfl
  | cons p rest ih =>
    obtain ⟨k₁, e₁⟩ := p
    simp only [keys, List.map_cons, List.mem_cons] at h
    push_neg at h
    simp [eraseKey, Ne.symm h.1, ih h.2]

lemma length_eraseKey_le (k : String) (l : List (String × CacheEntry T)) :
    (eraseKey k l).length ≤ l.length := by
  induction l with
  | nil => simp [eraseKey]
  | cons p rest ih =>
    obtain ⟨k₁, e₁⟩ := p
    by_cases h1 : k₁ = k <;> simp [eraseKey, h1] <;> omega

lemma length_eraseKey_of_mem_keys (k : String) (l : List (String × CacheEntry T))
    (hnd : (keys l).Nodup) (hk : k ∈ keys l) :
    (eraseKey k l).length + 1 = l.length := by
  induction l with
  | nil => simp [keys] at hk
  | cons p rest ih =>
    obtain ⟨k₁, e₁⟩ := p
    simp only [keys, List.map_cons, List.nodup_cons] at hnd
    by_cases h1 : k₁ = k
    · subst h1
      rw [eraseKey, if_pos rfl, eraseKey_eq_self_of_not_mem _ _ hnd.1]
      simp
    · simp only [keys, List.map_cons, List.mem_cons] at hk
      rcases hk with hk | hk
      · exact absurd hk.symm h1
      · simp only [eraseKey, if_neg h1, List.length_cons]
        rw [← ih hnd.2 hk]

lemma nodup_keys_insertEntry (k : String) (e : CacheEntry T)
    (l : List (String × CacheEntry T)) (hnd : (keys l).Nodup) :
    (keys (insertEntry k e l)).Nodup := by
  simp only [insertEntry, keys, List.map_cons, List.nodup_cons]
  refine ⟨fun hmem => ?_, nodup_keys_eraseKey k l hnd⟩
  exact ((mem_keys_eraseKey _ _ _).mp hmem).1 rfl

lemma lookupKey_insertEntry (k k' : String) (e : CacheEntry T)
    (l : List (String × CacheEntry T)) :
    lookupKey k (insertEntry k' e l) = if k' = k then some e else lookupKey k l := by
  by_cases h : k' = k
  · simp [insertEntry, lookupKey, h]
  · simp only [insertEntry, lookupKey, if_neg h]
    rw [lookupKey_eraseKey, if_neg (fun hh => h hh.symm)]

lemma length_insertEntry_of_not_mem (k : String) (e : CacheEntry T)
    (l : List (String × CacheEntry T)) (h : k ∉ keys l) :
    (insertEntry k e l).length = l.length + 1 := by
  simp [insertEntry, eraseKey_eq_self_of_not_mem k l h]

lemma length_insertEntry_of_mem (k : String) (e : CacheEntry T)
    (l : List (String × CacheEntry T)) (hnd : (keys l).Nodup) (h : k ∈ keys l) :
    (insertEntry k e l).length = l.length := by
  simp only [insertEntry, List.length_cons]
  exact length_eraseKey_of_mem_keys k l hnd h

/-! ### Lemmas about the oldest-entry search -/

lemma foldl_minStep_mem (x : String × CacheEntry T) (xs : List (String × CacheEntry T)) :
    xs.foldl minStep x = x ∨ xs.foldl minStep x ∈ xs := by
  induction xs generalizing x with
  | nil => exact Or.inl rfl
  | cons y ys ih =>
    simp only [List.foldl_cons]
    rcases ih (minStep x y) with h | h
    · rw [h]; unfold minStep; split
      · exact Or.inr (List.mem_cons_self _ _)
      · exact Or.inl rfl
    · exact Or.inr (List.mem_cons_of_mem _ h)

lemma foldl_minStep_le (x : String × CacheEntry T) (xs : List (String × CacheEntry T)) :
    (xs.foldl minStep x).2.created_at ≤ x.2.created_at ∧
      ∀ q ∈ xs, (xs.foldl minStep x).2.created_at ≤ q.2.created_at := by
  induction xs generalizing x with
  | nil => simp
  | cons y ys ih =>
    simp only [List.foldl_cons]
    obtain ⟨h1, h2⟩ := ih (minStep x y)
    have hx : (minStep x y).2.created_at ≤ x.2.created_at ∧
        (minStep x y).2.created_at ≤ y.2.created_at := by
      unfold minStep; split <;> omega
    refine ⟨le_trans h1 hx.1, ?_⟩
    intro q hq
    rcases List.mem_cons.mp hq with rfl | hq
    · exact le_trans h1 hx.2
    · exact h2 q hq

lemma minByCreated_eq_none_iff (l : List (String × CacheEntry T)) :
    minByCreated l = none ↔ l = [] := by
  cases l <;> simp [minByCreated]

lemma minByCreated_mem (l : List (String × CacheEntry T)) (p : String × CacheEntry T)
    (h : minByCreated l = some p) : p ∈ l := by
  cases l with
  | nil => simp [minByCreated] at h
  | cons x xs =>
    simp only [minByCreated, Option.some.injEq] at h
    subst h
    rcases foldl_minStep_mem x xs with h | h
    · rw [h]; exact List.mem_cons_self _ _
    · exact List.mem_cons_of_mem _ h

lemma minByCreated_le (l : List (String × CacheEntry T)) (p : String × CacheEntry T)
    (h : minByCreated l = some p) : ∀ q ∈ l, p.2.created_at ≤ q.2.created_at := by
  cases l with
  | nil => simp [minByCreated] at h
  | cons x xs =>
    simp only [minByCreated, Option.some.injEq] at h
    subst h
    intro q hq
    rcases List.mem_cons.mp hq with hq | hq
    · rw [hq]; exact (foldl_minStep_le x xs).1
    · exact (foldl_minStep_le x xs).2 q hq

/-! ### Lemmas about cleanup_expired -/

lemma cleanup_fold_fields (ks : List String) (c : Cache T) :
    (ks.foldl cleanStep c).data = eraseAll ks c.data ∧
    (ks.foldl cleanStep c).hits = c.hits ∧
    (ks.foldl cleanStep c).misses = c.misses ∧
    (ks.foldl cleanStep c).evictions = c.evictions + ks.length ∧
    (ks.foldl cleanStep c).max_entries = c.max_entries ∧
    (ks.foldl cleanStep c).default_ttl_seconds = c.default_ttl_seconds := by
  induction ks generalizing c with
  | nil => simp [eraseAll]
  | cons k ks ih =>
    simp only [List.foldl_cons]
    obtain ⟨h1, h2, h3, h4, h5, h6⟩ := ih (cleanStep c k)
    refine ⟨?_, ?_, ?_, ?_, ?_, ?_⟩
    all_goals simp_all [cleanStep, eraseAll]
    all_goals omega

lemma cleanup_expired_data (c : Cache T) (now : Nat) :
    (c.cleanup_expired now).data = eraseAll (expiredKeys now c.data) c.data :=
  (cleanup_fold_fields _ c).1

lemma cleanup_expired_hits (c : Cache T) (now : Nat) :
    (c.cleanup_expired now).hits = c.hits :=
  (cleanup_fold_fields _ c).2.1

lemma cleanup_expired_misses (c : Cache T) (now : Nat) :
    (c.cleanup_expired now).misses = c.misses :=
  (cleanup_fold_fields _ c).2.2.1

lemma cleanup_expired_evictions (c : Cache T) (now : Nat) :
    (c.cleanup_expired now).evictions = c.evictions + (expiredKeys now c.data).length :=
  (cleanup_fold_fields _ c).2.2.2.1

lemma cleanup_expired_max_entries (c : Cache T) (now : Nat) :
    (c.cleanup_expired now).max_entries = c.max_entries :=
  (cleanup_fold_fields _ c).2.2.2.2.1

lemma lookupKey_eraseAll (k : String) (ks : List String)
    (l : List (String × CacheEntry T)) :
    lookupKey k (eraseAll ks l) = if k ∈ ks then none else lookupKey k l := by
  induction ks generalizing l with
  | nil => simp [eraseAll]
  | cons k' ks ih =>
    show lookupKey k (eraseAll ks (eraseKey k' l)) = _
    rw [ih, lookupKey_eraseKey]
    by_cases h1 : k = k' <;> by_cases h2 : k ∈ ks <;>
      simp [h1, h2, List.mem_cons]

lemma nodup_keys_eraseAll (ks : List String) (l : List (String × CacheEntry T))
    (hnd : (keys l).Nodup) : (keys (eraseAll ks l)).Nodup := by
  induction ks generalizing l with
  | nil => exact hnd
  | cons k ks ih => exact ih _ (nodup_keys_eraseKey k l hnd)

lemma length_eraseAll_le (ks : List String) (l : List (String × CacheEntry T)) :
    (eraseAll ks l).length ≤ l.length := by
  induction ks generalizing l with
  | nil => exact le_refl _
  | cons k ks ih => exact le_trans (ih (eraseKey k l)) (length_eraseKey_le k l)

lemma length_eraseAll_of_nodup (ks : List String) (l : List (String × CacheEntry T))
    (hnd : (keys l).Nodup) (hdist : ks.Nodup) (hmem : ∀ k ∈ ks, k ∈ keys l) :
    (eraseAll ks l).length + ks.length = l.length := by
  induction ks generalizing l with
  | nil => simp [eraseAll]
  | cons k ks ih =>
    have h1 : k ∈ keys l := hmem k (List.mem_cons_self _ _)
    have h2 : (eraseKey k l).length + 1 = l.length := length_eraseKey_of_mem_keys k l hnd h1
    have h3 : ∀ k' ∈ ks, k' ∈ keys (eraseKey k l) := by
      intro k' hk'
      have hne : k' ≠ k := by
        rintro rfl
        exact (List.nodup_cons.mp hdist).1 hk'
      exact (mem_keys_eraseKey k' k l).mpr ⟨hne, hmem k' (List.mem_cons_of_mem _ hk')⟩
    have h4 := ih (eraseKey k l) (nodup_keys_eraseKey k l hnd) (List.nodup_cons.mp hdist).2 h3
    show (eraseAll ks (eraseKey k l)).length + (ks.length + 1) = l.length
    omega

lemma mem_expiredKeys_iff (k : String) (now : Nat) (l : List (String × CacheEntry T)) :
    k ∈ expiredKeys now l ↔ ∃ e, (k, e) ∈ l ∧ isExpired now e = true := by
  simp only [expiredKeys, keys]
  constructor
  · intro h
    obtain ⟨p, hp, hk⟩ := List.mem_map.mp h
    obtain ⟨hmem, hexp⟩ := List.mem_filter.mp hp
    refine ⟨p.2, ?_, hexp⟩
    rw [← hk]
    simpa using hmem
  · rintro ⟨e, hmem, hexp⟩
    exact List.mem_map.mpr ⟨(k, e), List.mem_filter.mpr ⟨hmem, hexp⟩, rfl⟩

lemma nodup_expiredKeys (now : Nat) (l : List (String × CacheEntry T))
    (hnd : (keys l).Nodup) : (expiredKeys now l).Nodup := by
  simp only [expiredKeys, keys] at *
  exact List.Nodup.sublist (List.Sublist.map Prod.fst (List.filter_sublist l)) hnd

lemma mem_keys_of_mem_expiredKeys (k : String) (now : Nat)
    (l : List (String × CacheEntry T)) (h : k ∈ expiredKeys now l) : k ∈ keys l := by
  obtain ⟨e, hmem, _⟩ := (mem_expiredKeys_iff k now l).mp h
  exact (mem_keys_iff k l).mpr ⟨e, hmem⟩

lemma mem_expiredKeys_of_lookup (k : String) (now : Nat) (e : CacheEntry T)
    (l : List (String × CacheEntry T)) (hnd : (keys l).Nodup)
    (h : lookupKey k l = some e) :
    k ∈ expiredKeys now l ↔ isExpired now e = true := by
  rw [mem_expiredKeys_iff]
  constructor
  · rintro ⟨e', hmem, hexp⟩
    have h' : lookupKey k l = some e' := lookupKey_eq_some_of_mem _ _ _ hnd hmem
    rw [h] at h'
    injection h' with h'
    rw [h']
    exact hexp
  · intro hexp
    exact ⟨e, mem_of_lookupKey_eq_some _ _ _ h, hexp⟩

/-! ### Case equations for get -/

lemma get_eq_hit (c : Cache T) (k : String) (now : Nat) (e : CacheEntry T)
    (hl : lookupKey k c.data = some e) (hx : isExpired now e = false) :
    c.get k now = (some e.data, { c with hits := c.hits + 1 }) := by
  unfold Cache.get
  rw [hl]
  cases hex : e.expires_at with
  | none => simp [hex]
  | some exp =>
    have hlt : ¬ exp < now := by simpa [isExpired, hex] using hx
    simp [hex, hlt]

lemma get_eq_expired (c : Cache T) (k : String) (now : Nat) (e : CacheEntry T)
    (hl : lookupKey k c.data = some e) (hx : isExpired now e = true) :
    c.get k now = (none, { c with data := eraseKey k c.data, misses := c.misses + 1 }) := by
  unfold Cache.get
  rw [hl]
  cases hex : e.expires_at with
  | none => simp [isExpired, hex] at hx
  | some exp =>
    have hlt : exp < now := by simpa [isExpired, hex] using hx
    simp [hex, hlt]

lemma get_eq_absent (c : Cache T) (k : String) (now : Nat)
    (hl : lookupKey k c.data = none) :
    c.get k now = (none, { c with misses := c.misses + 1 }) := by
  unfold Cache.get
  rw [hl]

lemma get_hits (c : Cache T) (k : String) (now : Nat) :
    (c.get k now).2.hits = c.hits + (if hitp c k now then 1 else 0) := by
  cases hl : lookupKey k c.data with
  | none => simp [get_eq_absent c k now hl, hitp, hl]
  | some e =>
    cases hx : isExpired now e
    · simp [get_eq_hit c k now e hl hx, hitp, hl, hx]
    · simp [get_eq_expired c k now e hl hx, hitp, hl, hx]

lemma get_misses (c : Cache T) (k : String) (now : Nat) :
    (c.get k now).2.misses = c.misses + (if hitp c k now then 0 else 1) := by
  cases hl : lookupKey k c.data with
  | none => simp [get_eq_absent c k now hl, hitp, hl]
  | some e =>
    cases hx : isExpired now e
    · simp [get_eq_hit c k now e hl hx, hitp, hl, hx]
    · simp [get_eq_expired c k now e hl hx, hitp, hl, hx]

lemma get_evictions (c : Cache T) (k : String) (now : Nat) :
    (c.get k now).2.evictions = c.evictions := by
  cases hl : lookupKey k c.data with
  | none => simp [get_eq_absent c k now hl]
  | some e =>
    cases hx : isExpired now e
    · simp [get_eq_hit c k now e hl hx]
    · simp [get_eq_expired c k now e hl hx]

lemma get_max_entries (c : Cache T) (k : String) (now : Nat) :
    (c.get k now).2.max_entries = c.max_entries := by
  cases hl : lookupKey k c.data with
  | none => simp [get_eq_absent c k now hl]
  | some e =>
    cases hx : isExpired now e
    · simp [get_eq_hit c k now e hl hx]
    · simp [get_eq_expired c k now e hl hx]

/-! ### Case equations for set_with_ttl -/

lemma set_with_ttl_hits (c : Cache T) (k : String) (v : T) (t : Option Nat) (now : Nat) :
    (c.set_with_ttl k v t now).hits = c.hits := rfl

lemma set_with_ttl_misses (c : Cache T) (k : String) (v : T) (t : Option Nat) (now : Nat) :
    (c.set_with_ttl k v t now).misses = c.misses := rfl

lemma set_with_ttl_max_entries (c : Cache T) (k : String) (v : T) (t : Option Nat)
    (now : Nat) : (c.set_with_ttl k v t now).max_entries = c.max_entries := rfl

lemma set_with_ttl_default_ttl_seconds (c : Cache T) (k : String) (v : T) (t : Option Nat)
    (now : Nat) : (c.set_with_ttl k v t now).default_ttl_seconds = c.default_ttl_seconds := rfl

lemma set_with_ttl_of_present (c : Cache T) (k : String) (v : T) (t : Option Nat)
    (now : Nat) (e : CacheEntry T) (hl : lookupKey k c.data = some e) :
    (c.set_with_ttl k v t now).data = insertEntry k ⟨v, now, expiresOf c t now⟩ c.data ∧
    (c.set_with_ttl k v t now).evictions = c.evictions := by
  unfold Cache.set_with_ttl expiresOf
  have hno : (lookupKey k c.data).isNone = false := by rw [hl]; rfl
  simp [hno]

lemma set_with_ttl_of_absent_low (c : Cache T) (k : String) (v : T) (t : Option Nat)
    (now : Nat) (_hl : lookupKey k c.data = none) (hlen : c.data.length < c.max_entries) :
    (c.set_with_ttl k v t now).data = insertEntry k ⟨v, now, expiresOf c t now⟩ c.data ∧
    (c.set_with_ttl k v t now).evictions = c.evictions := by
  unfold Cache.set_with_ttl expiresOf
  have h1 : ¬ c.max_entries ≤ c.data.length := by omega
  simp [h1]

lemma set_with_ttl_of_empty (c : Cache T) (k : String) (v : T) (t : Option Nat)
    (now : Nat) (he : c.data = []) :
    (c.set_with_ttl k v t now).data = [(k, ⟨v, now, expiresOf c t now⟩)] ∧
    (c.set_with_ttl k v t now).evictions = c.evictions := by
  unfold Cache.set_with_ttl expiresOf
  rw [he]
  simp [lookupKey, minByCreated, insertEntry, eraseKey]

lemma set_with_ttl_of_absent_evict (c : Cache T) (k : String) (v : T) (t : Option Nat)
    (now : Nat) (hl : lookupKey k c.data = none) (hlen : c.max_entries ≤ c.data.length)
    (hne : c.data ≠ []) :
    ∃ p, minByCreated c.data = some p ∧
      (c.set_with_ttl k v t now).data =
        insertEntry k ⟨v, now, expiresOf c t now⟩ (eraseKey p.1 c.data) ∧
      (c.set_with_ttl k v t now).evictions = c.evictions + 1 := by
  obtain ⟨p, hp⟩ : ∃ p, minByCreated c.data = some p := by
    cases hmc : minByCreated c.data with
    | none => exact absurd ((minByCreated_eq_none_iff _).mp hmc) hne
    | some q => exact ⟨q, rfl⟩
  have hcond : c.max_entries ≤ c.data.length ∧ (lookupKey k c.data).isNone = true :=
    ⟨hlen, by rw [hl]; rfl⟩
  refine ⟨p, hp, ?_, ?_⟩
  · unfold Cache.set_with_ttl expiresOf
    simp [hcond, hp]
  · unfold Cache.set_with_ttl
    simp [hcond, hp]

/-! ### Well-formedness is invariant -/

lemma Wf_new (max ttl : Nat) : (Cache.new max ttl : Cache T).Wf := by
  simp [Cache.new, Cache.Wf, keys]

lemma Wf_get (c : Cache T) (k : String) (now : Nat) (hwf : c.Wf) :
    ((c.get k now).2).Wf := by
  unfold Cache.Wf at *
  unfold Cache.get
  split
  · split
    · split
      · exact nodup_keys_eraseKey _ _ hwf
      · exact hwf
    · exact hwf
  · exact hwf

lemma Wf_set_with_ttl (c : Cache T) (k : String) (v : T) (t : Option Nat) (now : Nat)
    (hwf : c.Wf) : (c.set_with_ttl k v t now).Wf := by
  unfold Cache.Wf at *
  unfold Cache.set_with_ttl
  apply nodup_keys_insertEntry
  split
  · split
    · exact nodup_keys_eraseKey _ _ hwf
    · exact hwf
  · exact hwf

lemma Wf_remove (c : Cache T) (k : String) (hwf : c.Wf) : ((c.remove k).2).Wf :=
  nodup_keys_eraseKey _ _ hwf

lemma Wf_clear (c : Cache T) (_hwf : c.Wf) : (c.clear).Wf := by
  simp [Cache.clear, Cache.Wf, keys]

lemma Wf_cleanup_expired (c : Cache T) (now : Nat) (hwf : c.Wf) :
    (c.cleanup_expired now).Wf := by
  unfold Cache.Wf at *
  rw [cleanup_expired_data]
  exact nodup_keys_eraseAll _ _ hwf

lemma Wf_step (c : Cache T) (op : Op T) (hwf : c.Wf) : (c.step op).Wf := by
  cases op with
  | get k now => exact Wf_get c k now hwf
  | set k v now => exact Wf_set_with_ttl c k v none now hwf
  | set_with_ttl k v t now => exact Wf_set_with_ttl c k v t now hwf
  | remove k => exact Wf_remove c k hwf
  | clear => exact Wf_clear c hwf
  | cleanup_expired now => exact Wf_cleanup_expired c now hwf

lemma Wf_run (c : Cache T) (ops : List (Op T)) (hwf : c.Wf) : (c.run ops).Wf := by
  induction ops generalizing c with
  | nil => exact hwf
  | cons op ops ih => exact ih _ (Wf_step c op hwf)

/-! ### Counter accounting along a run -/

lemma set_with_ttl_evictions_cases (c : Cache T) (k : String) (v : T) (t : Option Nat)
    (now : Nat) :
    (c.set_with_ttl k v t now).evictions = c.evictions ∨
    (c.set_with_ttl k v t now).evictions = c.evictions + 1 := by
  cases hl : lookupKey k c.data with
  | some e => exact Or.inl (set_with_ttl_of_present c k v t now e hl).2
  | none =>
    by_cases hlen : c.data.length < c.max_entries
    · exact Or.inl (set_with_ttl_of_absent_low c k v t now hl hlen).2
    · by_cases hne : c.data = []
      · exact Or.inl (set_with_ttl_of_empty c k v t now hne).2
      · obtain ⟨p, _, _, h⟩ := set_with_ttl_of_absent_evict c k v t now hl (by omega) hne
        exact Or.inr h

lemma step_hits (c : Cache T) (op : Op T) :
    (c.step op).hits = c.hits + hitDelta c op := by
  cases op <;>
    simp [Cache.step, hitDelta, get_hits, Cache.set, set_with_ttl_hits, Cache.remove,
      Cache.clear, cleanup_expired_hits]

lemma step_misses (c : Cache T) (op : Op T) :
    (c.step op).misses = c.misses + missDelta c op := by
  cases op <;>
    simp [Cache.step, missDelta, get_misses, Cache.set, set_with_ttl_misses, Cache.remove,
      Cache.clear, cleanup_expired_misses]

lemma step_max_entries (c : Cache T) (op : Op T) :
    (c.step op).max_entries = c.max_entries := by
  cases op <;>
    simp [Cache.step, get_max_entries, Cache.set, set_with_ttl_max_entries, Cache.remove,
      Cache.clear, cleanup_expired_max_entries]

lemma step_counters_mono (c : Cache T) (op : Op T) :
    c.hits ≤ (c.step op).hits ∧ c.misses ≤ (c.step op).misses ∧
      c.evictions ≤ (c.step op).evictions := by
  refine ⟨?_, ?_, ?_⟩
  · rw [step_hits]; omega
  · rw [step_misses]; omega
  · cases op with
    | get k now => show c.evictions ≤ (c.get k now).2.evictions; rw [get_evictions]
    | set k v now =>
      show c.evictions ≤ (c.set_with_ttl k v none now).evictions
      rcases set_with_ttl_evictions_cases c k v none now with h | h <;> omega
    | set_with_ttl k v t now =>
      show c.evictions ≤ (c.set_with_ttl k v t now).evictions
      rcases set_with_ttl_evictions_cases c k v t now with h | h <;> omega
    | remove k => exact le_refl _
    | clear => exact le_refl _
    | cleanup_expired now =>
      show c.evictions ≤ (c.cleanup_expired now).evictions
      rw [cleanup_expired_evictions]; omega

lemma run_hits (c : Cache T) (ops : List (Op T)) :
    (c.run ops).hits = c.hits + countHits c ops := by
  induction ops generalizing c with
  | nil => simp [Cache.run, countHits]
  | cons op ops ih =>
    show ((c.step op).run ops).hits = _
    rw [ih, step_hits, countHits]
    omega

lemma run_misses (c : Cache T) (ops : List (Op T)) :
    (c.run ops).misses = c.misses + countMisses c ops := by
  induction ops generalizing c with
  | nil => simp [Cache.run, countMisses]
  | cons op ops ih =>
    show ((c.step op).run ops).misses = _
    rw [ih, step_misses, countMisses]
    omega

lemma run_counters_mono (c : Cache T) (ops : List (Op T)) :
    c.hits ≤ (c.run ops).hits ∧ c.misses ≤ (c.run ops).misses ∧
      c.evictions ≤ (c.run ops).evictions := by
  induction ops generalizing c with
  | nil => exact ⟨le_refl _, le_refl _, le_refl _⟩
  | cons op ops ih =>
    obtain ⟨h1, h2, h3⟩ := step_counters_mono c op
    obtain ⟨h4, h5, h6⟩ := ih (c.step op)
    exact ⟨le_trans h1 h4, le_trans h2 h5, le_trans h3 h6⟩

lemma run_max_entries (c : Cache T) (ops : List (Op T)) :
    (c.run ops).max_entries = c.max_entries := by
  induction ops generalizing c with
  | nil => rfl
  | cons op ops ih =>
    show ((c.step op).run ops).max_entries = _
    rw [ih, step_max_entries]

/-! ### The capacity bound -/

lemma get_data_cases (c : Cache T) (k : String) (now : Nat) :
    (c.get k now).2.data = c.data ∨ (c.get k now).2.data = eraseKey k c.data := by
  cases hl : lookupKey k c.data with
  | none => exact Or.inl (by rw [get_eq_absent c k now hl])
  | some e =>
    cases hx : isExpired now e
    · exact Or.inl (by rw [get_eq_hit c k now e hl hx])
    · exact Or.inr (by rw [get_eq_expired c k now e hl hx])

lemma set_with_ttl_length_le (c : Cache T) (k : String) (v : T) (t : Option Nat)
    (now : Nat) (hwf : c.Wf) (hlen : c.data.length ≤ Nat.max c.max_entries 1) :
    (c.set_with_ttl k v t now).data.length ≤ Nat.max c.max_entries 1 := by
  cases hl : lookupKey k c.data with
  | some e =>
    rw [(set_with_ttl_of_present c k v t now e hl).1,
      length_insertEntry_of_mem _ _ _ hwf
        ((mem_keys_iff _ _).mpr ⟨e, mem_of_lookupKey_eq_some _ _ _ hl⟩)]
    exact hlen
  | none =>
    have hk : k ∉ keys c.data := (lookupKey_eq_none_iff _ _).mp hl
    by_cases hlt : c.data.length < c.max_entries
    · rw [(set_with_ttl_of_absent_low c k v t now hl hlt).1,
        length_insertEntry_of_not_mem _ _ _ hk]
      calc c.data.length + 1 ≤ c.max_entries := hlt
        _ ≤ Nat.max c.max_entries 1 := le_max_left _ _
    · by_cases hne : c.data = []
      · rw [(set_with_ttl_of_empty c k v t now hne).1]
        simp
      · obtain ⟨p, hp, hdata, _⟩ := set_with_ttl_of_absent_evict c k v t now hl (by omega) hne
        rw [hdata]
        have hpmem : p ∈ c.data := minByCreated_mem _ _ hp
        have hpkey : p.1 ∈ keys c.data :=
          (mem_keys_iff _ _).mpr ⟨p.2, by simpa using hpmem⟩
        have hlen1 : (eraseKey p.1 c.data).length + 1 = c.data.length :=
          length_eraseKey_of_mem_keys _ _ hwf hpkey
        have hk2 : k ∉ keys (eraseKey p.1 c.data) := fun hmem =>
          hk ((mem_keys_eraseKey _ _ _).mp hmem).2
        rw [length_insertEntry_of_not_mem _ _ _ hk2]
        omega

lemma step_length_bound (c : Cache T) (op : Op T) (hwf : c.Wf)
    (h : c.data.length ≤ Nat.max c.max_entries 1) :
    (c.step op).data.length ≤ Nat.max c.max_entries 1 := by
  cases op with
  | get k now =>
    show (c.get k now).2.data.length ≤ _
    rcases get_data_cases c k now with hd | hd <;> rw [hd]
    · exact h
    · exact le_trans (length_eraseKey_le _ _) h
  | set k v now => exact set_with_ttl_length_le c k v none now hwf h
  | set_with_ttl k v t now => exact set_with_ttl_length_le c k v t now hwf h
  | remove k =>
    show (eraseKey k c.data).length ≤ _
    exact le_trans (length_eraseKey_le _ _) h
  | clear =>
    show ([] : List (String × CacheEntry T)).length ≤ _
    simp
  | cleanup_expired now =>
    show (c.cleanup_expired now).data.length ≤ _
    rw [cleanup_expired_data]
    exact le_trans (length_eraseAll_le _ _) h

lemma run_length_bound (c : Cache T) (ops : List (Op T)) (hwf : c.Wf)
    (h : c.data.length ≤ Nat.max c.max_entries 1) :
    (c.run ops).data.length ≤ Nat.max c.max_entries 1 := by
  induction ops generalizing c with
  | nil => exact h
  | cons op ops ih =>
    show ((c.step op).run ops).data.length ≤ _
    have h1 := ih (c.step op) (Wf_step c op hwf) (by rw [step_max_entries]; exact step_length_bound c op hwf h)
    rwa [step_max_entries] at h1

/-! ### Survival of entries across cleanups and reads -/

lemma set_with_ttl_lookup_self (c : Cache T) (k : String) (v : T) (t : Option Nat)
    (now : Nat) :
    lookupKey k (c.set_with_ttl k v t now).data = some ⟨v, now, expiresOf c t now⟩ := by
  show lookupKey k (insertEntry k _ _) = _
  rw [lookupKey_insertEntry, if_pos rfl]
  rfl

lemma cleanup_lookup_of_not_expired (c : Cache T) (now : Nat) (key : String)
    (e : CacheEntry T) (hwf : c.Wf) (hl : lookupKey key c.data = some e)
    (hx : isExpired now e = false) :
    lookupKey key (c.cleanup_expired now).data = some e := by
  rw [cleanup_expired_data, lookupKey_eraseAll, if_neg]
  · exact hl
  · intro hmem
    have := (mem_expiredKeys_of_lookup key now e c.data hwf hl).mp hmem
    rw [hx] at this
    cases this

lemma foldl_cleanup_lookup_some (cs : List Nat) (key : String) (e : CacheEntry T) :
    (∀ x ∈ cs, isExpired x e = false) →
    ∀ c : Cache T, c.Wf → lookupKey key c.data = some e →
      lookupKey key ((cs.foldl (fun a n => a.cleanup_expired n) c).data) = some e := by
  induction cs with
  | nil => intro _ c _ hl; exact hl
  | cons x cs ih =>
    intro hx c hwf hl
    show lookupKey key ((cs.foldl (fun a n => a.cleanup_expired n) (c.cleanup_expired x)).data)
      = some e
    exact ih (fun y hy => hx y (List.mem_cons_of_mem _ hy)) (c.cleanup_expired x)
      (Wf_cleanup_expired c x hwf)
      (cleanup_lookup_of_not_expired c x key e hwf hl (hx x (List.mem_cons_self _ _)))

lemma foldl_cleanup_lookup_cases (cs : List Nat) (key : String) :
    ∀ c : Cache T,
      lookupKey key ((cs.foldl (fun a n => a.cleanup_expired n) c).data)
          = lookupKey key c.data ∨
      lookupKey key ((cs.foldl (fun a n => a.cleanup_expired n) c).data) = none := by
  induction cs with
  | nil => intro c; exact Or.inl rfl
  | cons x cs ih =>
    intro c
    have h1 : lookupKey key (c.cleanup_expired x).data = lookupKey key c.data ∨
        lookupKey key (c.cleanup_expired x).data = none := by
      rw [cleanup_expired_data, lookupKey_eraseAll]
      by_cases h : key ∈ expiredKeys x c.data
      · exact Or.inr (if_pos h)
      · exact Or.inl (if_neg h)
    have h2 := ih (c.cleanup_expired x)
    show lookupKey key ((cs.foldl (fun a n => a.cleanup_expired n) (c.cleanup_expired x)).data)
        = lookupKey key c.data ∨
      lookupKey key ((cs.foldl (fun a n => a.cleanup_expired n) (c.cleanup_expired x)).data)
        = none
    rcases h2 with h2 | h2
    · rw [h2]; exact h1
    · exact Or.inr h2

lemma foldl_cleanup_misses (cs : List Nat) :
    ∀ c : Cache T, (cs.foldl (fun a n => a.cleanup_expired n) c).misses = c.misses := by
  induction cs with
  | nil => intro c; rfl
  | cons x cs ih =>
    intro c
    show (cs.foldl (fun a n => a.cleanup_expired n) (c.cleanup_expired x)).misses = c.misses
    rw [ih (c.cleanup_expired x), cleanup_expired_misses]

lemma foldl_cleanup_wf (cs : List Nat) :
    ∀ c : Cache T, c.Wf → (cs.foldl (fun a n => a.cleanup_expired n) c).Wf := by
  induction cs with
  | nil => intro c hwf; exact hwf
  | cons x cs ih =>
    intro c hwf
    exact ih (c.cleanup_expired x) (Wf_cleanup_expired c x hwf)

lemma lookup_preserved_read_or_cleanup (c : Cache T) (key : String) (e : CacheEntry T)
    (op : Op T) (hwf : c.Wf) (hl : lookupKey key c.data = some e)
    (hne : e.expires_at = none) (hop : readOrCleanup op = true) :
    lookupKey key (c.step op).data = some e := by
  cases op with
  | get k' n =>
    by_cases hk : k' = key
    · subst hk
      have hx : isExpired n e = false := by simp [isExpired, hne]
      show lookupKey k' ((c.get k' n).2.data) = some e
      rw [get_eq_hit c k' n e hl hx]
      exact hl
    · show lookupKey key ((c.get k' n).2.data) = some e
      rcases get_data_cases c k' n with hd | hd <;> rw [hd]
      · exact hl
      · rw [lookupKey_eraseKey, if_neg (fun h => hk h.symm)]
        exact hl
  | cleanup_expired n =>
    show lookupKey key ((c.cleanup_expired n).data) = some e
    exact cleanup_lookup_of_not_expired c n key e hwf hl (by simp [isExpired, hne])
  | set k v n => simp [readOrCleanup] at hop
  | set_with_ttl k v t n => simp [readOrCleanup] at hop
  | remove k => simp [readOrCleanup] at hop
  | clear => simp [readOrCleanup] at hop

/-! ### The zero-capacity cache -/

lemma set_with_ttl_zero_cap_single (c : Cache T) (k0 : String) (e0 : CacheEntry T)
    (k : String) (v : T) (t : Option Nat) (now : Nat)
    (hmax : c.max_entries = 0) (hdata : c.data = [(k0, e0)]) :
    (c.set_with_ttl k v t now).data = [(k, ⟨v, now, expiresOf c t now⟩)]
    ∧ (c.set_with_ttl k v t now).evictions = c.evictions + (if k = k0 then 0 else 1) := by
  by_cases hk : k = k0
  · subst hk
    have hl : lookupKey k c.data = some e0 := by rw [hdata]; simp [lookupKey]
    obtain ⟨hd, hev⟩ := set_with_ttl_of_present c k v t now e0 hl
    constructor
    · rw [hd, hdata]
      simp [insertEntry, eraseKey]
    · simp [hev]
  · have hl : lookupKey k c.data = none := by
      rw [hdata]
      have hk0 : k0 ≠ k := fun h => hk h.symm
      simp [lookupKey, hk0]
    obtain ⟨p, hp, hd, hev⟩ := set_with_ttl_of_absent_evict c k v t now hl
      (by rw [hmax]; omega) (by rw [hdata]; simp)
    have hpe : p = (k0, e0) := by
      rw [hdata] at hp
      simpa [minByCreated] using hp.symm
    constructor
    · rw [hd, hpe, hdata]
      simp [insertEntry, eraseKey]
    · rw [hev, if_neg hk]

lemma runInserts_single (ins : List (Ins T)) :
    ∀ (c : Cache T) (k0 : String) (e0 : CacheEntry T), c.max_entries = 0 →
      c.data = [(k0, e0)] →
      (∃ e, (runInserts c ins).data = [(ins.foldl (fun _ i => i.key) k0, e)])
      ∧ (runInserts c ins).evictions = c.evictions + countSwitches (some k0) ins := by
  induction ins with
  | nil =>
    intro c k0 e0 _ hdata
    exact ⟨⟨e0, by simpa [runInserts] using hdata⟩, by simp [runInserts, countSwitches]⟩
  | cons i rest ih =>
    intro c k0 e0 hmax hdata
    obtain ⟨hd, hev⟩ := set_with_ttl_zero_cap_single c k0 e0 i.key i.value i.ttl_seconds
      i.now hmax hdata
    have hmax2 : (c.set_with_ttl i.key i.value i.ttl_seconds i.now).max_entries = 0 := by
      rw [set_with_ttl_max_entries]; exact hmax
    obtain ⟨h1, h2⟩ := ih (c.set_with_ttl i.key i.value i.ttl_seconds i.now) i.key
      ⟨i.value, i.now, expiresOf c i.ttl_seconds i.now⟩ hmax2 hd
    constructor
    · exact h1
    · show (runInserts (c.set_with_ttl i.key i.value i.ttl_seconds i.now) rest).evictions = _
      rw [h2, hev]
      show _ = c.evictions + ((if i.key = k0 then 0 else 1) + countSwitches (some i.key) rest)
      omega

lemma foldl_lastKey (ins : List (Ins T)) (hne : ins ≠ []) :
    ∀ k0 : String, ins.foldl (fun _ i => i.key) k0 = (ins.getLast hne).key := by
  induction ins with
  | nil => exact absurd rfl hne
  | cons i rest ih =>
    intro k0
    by_cases hr : rest = []
    · subst hr
      simp [List.getLast]
    · show rest.foldl (fun _ i => i.key) i.key = _
      rw [ih hr i.key]
      congr 1
      exact (List.getLast_cons hr).symm

lemma lastKey_cons (i : Ins T) (rest : List (Ins T)) :
    rest.foldl (fun _ j => j.key) i.key
      = ((i :: rest).getLast (List.cons_ne_nil i rest)).key := by
  by_cases hr : rest = []
  · subst hr
    simp [List.getLast]
  · rw [foldl_lastKey rest hr i.key]
    congr 1
    exact (List.getLast_cons hr).symm

lemma get_stats_hit_rate (c : Cache T) :
    c.get_stats.hit_rate
      = if 0 < c.hits + c.misses
        then ((c.hits : ℚ) / ((c.hits + c.misses : Nat) : ℚ)) * 100
        else 0 := rfl

/-! ### The claims -/

/-- Claim C1 counterexample: after inserting "x" with TTL 1 at instant 0,
a get at instant 2 serves the expired entry: it returns nothing, removes
the entry and increments misses by 1, but leaves evictions unchanged at
0 — contrary to the claim, the lazy-expiry path inside get does not
increment the evictions counter (it calls remove, which touches no
counter). -/
theorem C1_counterexample :
    ((((Cache.new 10 0 : Cache Nat).set_with_ttl "x" 7 (some 1) 0).get "x" 2).1 = none)
    ∧ ((((Cache.new 10 0 : Cache Nat).set_with_ttl "x" 7 (some 1) 0).get "x" 2).2.misses
        = ((Cache.new 10 0 : Cache Nat).set_with_ttl "x" 7 (some 1) 0).misses + 1)
    ∧ ((((Cache.new 10 0 : Cache Nat).set_with_ttl "x" 7 (some 1) 0).get "x" 2).2.evictions
        = 0)
    ∧ lookupKey "x"
        ((((Cache.new 10 0 : Cache Nat).set_with_ttl "x" 7 (some 1) 0).get "x" 2).2.data)
      = none := by
  decide

/-- Claim C1 (amended): a batch removal via cleanup_expired increments
evictions by exactly 1 per removed entry (evictions grows by the number
of expired keys and exactly that many entries are removed), while the
lazy path inside get serving a read of an expired entry removes the
entry and increments misses by 1 but leaves evictions unchanged. -/
theorem C1_eviction_accounting (c : Cache T) (now : Nat) (hwf : c.Wf) :
    ((c.cleanup_expired now).evictions
        = c.evictions + (expiredKeys now c.data).length
      ∧ (c.cleanup_expired now).data.length + (expiredKeys now c.data).length
        = c.data.length)
    ∧ ∀ key e, lookupKey key c.data = some e → isExpired now e = true →
        (c.get key now).1 = none
        ∧ (c.get key now).2.misses = c.misses + 1
        ∧ (c.get key now).2.evictions = c.evictions
        ∧ lookupKey key ((c.get key now).2.data) = none := by
  constructor
  · refine ⟨cleanup_expired_evictions c now, ?_⟩
    rw [cleanup_expired_data]
    exact length_eraseAll_of_nodup _ _ hwf (nodup_expiredKeys now c.data hwf)
      (fun k hk => mem_keys_of_mem_expiredKeys k now c.data hk)
  · intro key e hl hx
    rw [get_eq_expired c key now e hl hx]
    refine ⟨rfl, rfl, rfl, ?_⟩
    rw [lookupKey_eraseKey, if_pos rfl]

/-- Claim C1 witness: the amended accounting evaluated on an expired
entry. -/
theorem C1_eviction_accounting_witness :
    (((Cache.new 10 0 : Cache Nat).set_with_ttl "x" 7 (some 1) 0).cleanup_expired 2).evictions
      = ((Cache.new 10 0 : Cache Nat).set_with_ttl "x" 7 (some 1) 0).evictions
        + (expiredKeys 2 (((Cache.new 10 0 : Cache Nat).set_with_ttl "x" 7 (some 1) 0).data)).length :=
  (C1_eviction_accounting ((Cache.new 10 0 : Cache Nat).set_with_ttl "x" 7 (some 1) 0) 2
    (by decide)).1.1

/-- Claim C2 counterexample: insert "x" with TTL 1 at instant 0, so
created_at = 0 and expires_at = 1; a read at instant exactly
created_at + t = 1 still returns the value and counts a hit, because
the expiry test is strict (now > expires_at) — the claimed "returns
nothing for reads at or after created_at + t" fails at the boundary. -/
theorem C2_counterexample :
    ((((Cache.new 10 0 : Cache Nat).set_with_ttl "x" 5 (some 1) 0).get "x" 1).1 = some 5)
    ∧ ((((Cache.new 10 0 : Cache Nat).set_with_ttl "x" 5 (some 1) 0).get "x" 1).2.hits
        = 1) := by
  decide

/-- Claim C2 (amended): for an entry inserted with TTL t > 0 at instant
t0, after any cleanup sweeps between the insert and the read, a get at
instant τ ≤ t0 + t returns the stored value, while a get at instant
τ > t0 + t returns nothing, counts a miss and leaves the key absent —
only strictly after created_at + t does the read fail. -/
theorem C2_expiry_semantics (c : Cache T) (key : String) (v : T) (t t0 τ : Nat)
    (cs : List Nat) (hwf : c.Wf) (ht : 0 < t) (hcs : ∀ x ∈ cs, x ≤ τ) :
    (τ ≤ t0 + t →
      ((cs.foldl (fun a n => a.cleanup_expired n)
          (c.set_with_ttl key v (some t) t0)).get key τ).1 = some v)
    ∧ (t0 + t < τ →
      ((cs.foldl (fun a n => a.cleanup_expired n)
          (c.set_with_ttl key v (some t) t0)).get key τ).1 = none
      ∧ ((cs.foldl (fun a n => a.cleanup_expired n)
          (c.set_with_ttl key v (some t) t0)).get key τ).2.misses
        = (cs.foldl (fun a n => a.cleanup_expired n)
            (c.set_with_ttl key v (some t) t0)).misses + 1
      ∧ lookupKey key (((cs.foldl (fun a n => a.cleanup_expired n)
          (c.set_with_ttl key v (some t) t0)).get key τ).2.data) = none) := by
  have hwf1 : (c.set_with_ttl key v (some t) t0).Wf := Wf_set_with_ttl c key v (some t) t0 hwf
  have hent : lookupKey key (c.set_with_ttl key v (some t) t0).data
      = some ⟨v, t0, some (t0 + t)⟩ := by
    have h := set_with_ttl_lookup_self c key v (some t) t0
    rwa [show expiresOf c (some t) t0 = some (t0 + t) from by simp [expiresOf, ht]] at h
  constructor
  · intro hτ
    have hsurv := foldl_cleanup_lookup_some cs key ⟨v, t0, some (t0 + t)⟩
      (fun x hx => by
        have := hcs x hx
        simp only [isExpired, decide_eq_false_iff_not]
        omega)
      (c.set_with_ttl key v (some t) t0) hwf1 hent
    rw [get_eq_hit _ key τ _ hsurv (by simp only [isExpired, decide_eq_false_iff_not]; omega)]
  · intro hτ
    rcases foldl_cleanup_lookup_cases cs key (c.set_with_ttl key v (some t) t0) with hca | hca
    · have hlc : lookupKey key ((cs.foldl (fun a n => a.cleanup_expired n)
          (c.set_with_ttl key v (some t) t0)).data) = some ⟨v, t0, some (t0 + t)⟩ :=
        hca.trans hent
      have hexp : isExpired τ (⟨v, t0, some (t0 + t)⟩ : CacheEntry T) = true := by
        simp only [isExpired, decide_eq_true_eq]
        omega
      rw [get_eq_expired _ key τ _ hlc hexp]
      refine ⟨rfl, rfl, ?_⟩
      rw [lookupKey_eraseKey, if_pos rfl]
    · rw [get_eq_absent _ key τ hca]
      exact ⟨rfl, rfl, hca⟩

/-- Claim C2 witness: boundary read after one cleanup sweep still
returns the value. -/
theorem C2_expiry_semantics_witness :
    (([0].foldl (fun a n => a.cleanup_expired n)
        ((Cache.new 10 0 : Cache Nat).set_with_ttl "x" 5 (some 1) 0)).get "x" 1).1
      = some 5 :=
  (C2_expiry_semantics (Cache.new 10 0 : Cache Nat) "x" 5 1 0 1 [0]
    (by decide) (by decide) (by decide)).1 (by decide)

/-- Claim C3 counterexample: a cache constructed with max_entries = 0
still stores the entry of a set: after one insertion the entry count is
1, which exceeds max_entries = 0. -/
theorem C3_counterexample :
    ((Cache.new 0 0 : Cache Nat).set "a" 1 0).data.length = 1
    ∧ ((Cache.new 0 0 : Cache Nat).set "a" 1 0).max_entries = 0 := by
  decide

/-- Claim C3 (amended): starting from a fresh cache, after any sequence
of operations (in particular any sequence of set/set_with_ttl with
distinct keys) the number of stored entries never exceeds
max(max_entries, 1): for max_entries ≥ 1 this is the claimed bound
max_entries, while a cache constructed with max_entries = 0 can hold
one entry. -/
theorem C3_capacity_bound (max ttl : Nat) (ops : List (Op T)) :
    ((Cache.new max ttl : Cache T).run ops).data.length ≤ Nat.max max 1 :=
  run_length_bound (Cache.new max ttl : Cache T) ops (Wf_new max ttl)
    (by simp [Cache.new])

/-- Claim C4 counterexample: an empty cache constructed with
max_entries = 0 is at or above capacity and the key "a" is absent, yet
set_with_ttl removes nothing (the count grows) and does not increment
evictions — the claimed "exactly one entry is removed and evictions is
incremented by 1" fails when there is nothing to evict. -/
theorem C4_counterexample :
    (Cache.new 0 0 : Cache Nat).max_entries ≤ (Cache.new 0 0 : Cache Nat).data.length
    ∧ lookupKey "a" (Cache.new 0 0 : Cache Nat).data = none
    ∧ ((Cache.new 0 0 : Cache Nat).set_with_ttl "a" 1 none 0).evictions
        = (Cache.new 0 0 : Cache Nat).evictions
    ∧ ((Cache.new 0 0 : Cache Nat).set_with_ttl "a" 1 none 0).data.length
        = (Cache.new 0 0 : Cache Nat).data.length + 1 := by
  decide

/-- Claim C4 (amended): when set_with_ttl is called with an absent key
on a nonempty cache whose entry count is at or above max_entries,
exactly one entry is removed before the insert — one whose created_at
is minimal among all stored entries, independent of access recency —
its key becomes absent, evictions is incremented by exactly 1, the
total entry count is unchanged, and every other key is untouched. -/
theorem C4_oldest_eviction (c : Cache T) (key : String) (v : T) (t : Option Nat)
    (now : Nat) (hwf : c.Wf) (hne : c.data ≠ [])
    (hlen : c.max_entries ≤ c.data.length) (hl : lookupKey key c.data = none) :
    ∃ ok oe, (ok, oe) ∈ c.data
      ∧ (∀ q ∈ c.data, oe.created_at ≤ q.2.created_at)
      ∧ (c.set_with_ttl key v t now).evictions = c.evictions + 1
      ∧ (c.set_with_ttl key v t now).data.length = c.data.length
      ∧ lookupKey ok ((c.set_with_ttl key v t now).data) = none
      ∧ (∀ k, k ≠ ok → k ≠ key →
          lookupKey k ((c.set_with_ttl key v t now).data) = lookupKey k c.data) := by
  obtain ⟨p, hp, hd, hev⟩ := set_with_ttl_of_absent_evict c key v t now hl hlen hne
  have hpmem : p ∈ c.data := minByCreated_mem _ _ hp
  have hkabs : key ∉ keys c.data := (lookupKey_eq_none_iff _ _).mp hl
  have hpkey : p.1 ∈ keys c.data := (mem_keys_iff _ _).mpr ⟨p.2, by simpa using hpmem⟩
  have hpkne : p.1 ≠ key := fun h => hkabs (h ▸ hpkey)
  have hknotin : key ∉ keys (eraseKey p.1 c.data) := fun hmem =>
    hkabs ((mem_keys_eraseKey _ _ _).mp hmem).2
  refine ⟨p.1, p.2, by simpa using hpmem,
    (fun q hq => minByCreated_le _ _ hp q hq), hev, ?_, ?_, ?_⟩
  · rw [hd, length_insertEntry_of_not_mem _ _ _ hknotin]
    exact length_eraseKey_of_mem_keys _ _ hwf hpkey
  · rw [hd, lookupKey_insertEntry, if_neg (fun h => hpkne h.symm),
      lookupKey_eraseKey, if_pos rfl]
  · intro k hk1 hk2
    rw [hd, lookupKey_insertEntry, if_neg (fun h => hk2 h.symm),
      lookupKey_eraseKey, if_neg hk1]

/-- Claim C4 witness: Scenario A's pre-state — keys "a" (older) and "b"
at capacity 2 — admits "c" by evicting the oldest entry exactly once. -/
theorem C4_oldest_eviction_witness :
    ∃ ok oe, (ok, oe) ∈ (((Cache.new 2 0 : Cache Nat).set "a" 1 0).set "b" 2 1).data
      ∧ (∀ q ∈ (((Cache.new 2 0 : Cache Nat).set "a" 1 0).set "b" 2 1).data,
          oe.created_at ≤ q.2.created_at)
      ∧ ((((Cache.new 2 0 : Cache Nat).set "a" 1 0).set "b" 2 1).set_with_ttl
          "c" 3 none 2).evictions
        = (((Cache.new 2 0 : Cache Nat).set "a" 1 0).set "b" 2 1).evictions + 1
      ∧ ((((Cache.new 2 0 : Cache Nat).set "a" 1 0).set "b" 2 1).set_with_ttl
          "c" 3 none 2).data.length
        = (((Cache.new 2 0 : Cache Nat).set "a" 1 0).set "b" 2 1).data.length
      ∧ lookupKey ok (((((Cache.new 2 0 : Cache Nat).set "a" 1 0).set "b" 2 1).set_with_ttl
          "c" 3 none 2).data) = none
      ∧ (∀ k, k ≠ ok → k ≠ "c" →
          lookupKey k (((((Cache.new 2 0 : Cache Nat).set "a" 1 0).set "b" 2 1).set_with_ttl
            "c" 3 none 2).data)
          = lookupKey k ((((Cache.new 2 0 : Cache Nat).set "a" 1 0).set "b" 2 1).data)) :=
  C4_oldest_eviction (((Cache.new 2 0 : Cache Nat).set "a" 1 0).set "b" 2 1) "c" 3 none 2
    (by decide) (by decide) (by decide) (by decide)

/-- Claim C5: starting from a fresh cache, along any operation
sequence, hits equals the number of get calls served from a present
unexpired entry, misses equals the number of get calls on absent or
expired keys, and get_stats reports hit_rate = 100*h/(h+m), with 0 when
h+m = 0 (the division is modelled over exact rationals). -/
theorem C5_hit_miss_accounting (max ttl : Nat) (ops : List (Op T)) :
    ((Cache.new max ttl : Cache T).run ops).hits
        = countHits (Cache.new max ttl : Cache T) ops
    ∧ ((Cache.new max ttl : Cache T).run ops).misses
        = countMisses (Cache.new max ttl : Cache T) ops
    ∧ ((Cache.new max ttl : Cache T).run ops).get_stats.hit_rate
        = if countHits (Cache.new max ttl : Cache T) ops
              + countMisses (Cache.new max ttl : Cache T) ops = 0 then 0
          else ((100 * countHits (Cache.new max ttl : Cache T) ops : Nat) : ℚ)
            / ((countHits (Cache.new max ttl : Cache T) ops
                + countMisses (Cache.new max ttl : Cache T) ops : Nat) : ℚ) := by
  have h1 : ((Cache.new max ttl : Cache T).run ops).hits
      = countHits (Cache.new max ttl : Cache T) ops := by
    rw [run_hits]
    simp [Cache.new]
  have h2 : ((Cache.new max ttl : Cache T).run ops).misses
      = countMisses (Cache.new max ttl : Cache T) ops := by
    rw [run_misses]
    simp [Cache.new]
  refine ⟨h1, h2, ?_⟩
  rw [get_stats_hit_rate, h1, h2]
  by_cases h : countHits (Cache.new max ttl : Cache T) ops
      + countMisses (Cache.new max ttl : Cache T) ops = 0
  · rw [if_neg (by omega), if_pos h]
  · rw [if_pos (Nat.pos_of_ne_zero h), if_neg h]
    push_cast
    ring

/-- Claim C6: re-inserting under an already-present key replaces the
entry wholesale with fresh created_at and expires_at, removes no other
entry, never increments evictions, and leaves the entry count
unchanged (set is the ttl_seconds = none instance). -/
theorem C6_overwrite_frame (c : Cache T) (key : String) (v : T) (t : Option Nat)
    (now : Nat) (e0 : CacheEntry T) (hwf : c.Wf)
    (hl : lookupKey key c.data = some e0) :
    (c.set_with_ttl key v t now).data.length = c.data.length
    ∧ (c.set_with_ttl key v t now).evictions = c.evictions
    ∧ (∀ k, k ≠ key →
        lookupKey k ((c.set_with_ttl key v t now).data) = lookupKey k c.data)
    ∧ lookupKey key ((c.set_with_ttl key v t now).data)
        = some ⟨v, now, expiresOf c t now⟩ := by
  obtain ⟨hd, hev⟩ := set_with_ttl_of_present c key v t now e0 hl
  refine ⟨?_, hev, ?_, ?_⟩
  · rw [hd, length_insertEntry_of_mem _ _ _ hwf
      ((mem_keys_iff _ _).mpr ⟨e0, mem_of_lookupKey_eq_some _ _ _ hl⟩)]
  · intro k hk
    rw [hd, lookupKey_insertEntry, if_neg (fun h => hk h.symm)]
  · rw [hd, lookupKey_insertEntry, if_pos rfl]

/-- Claim C6 witness: overwriting "a" in a two-entry cache keeps the
entry count at 2. -/
theorem C6_overwrite_frame_witness :
    ((((Cache.new 2 0 : Cache Nat).set "a" 1 0).set "b" 2 1).set_with_ttl
        "a" 9 (some 10) 5).data.length
      = (((Cache.new 2 0 : Cache Nat).set "a" 1 0).set "b" 2 1).data.length :=
  (C6_overwrite_frame (((Cache.new 2 0 : Cache Nat).set "a" 1 0).set "b" 2 1) "a" 9
    (some 10) 5 ⟨1, 0, none⟩ (by decide) (by decide)).1

/-- Claim C7: an entry whose effective TTL was 0 (expires_at = none) is
never removed by expiry logic — after any sequence of get and
cleanup_expired operations it is still stored unchanged, and a get on
its key at any instant returns its value. -/
theorem C7_no_expiry (c : Cache T) (key : String) (e : CacheEntry T) (ops : List (Op T))
    (now : Nat) (hwf : c.Wf) (hl : lookupKey key c.data = some e)
    (hne : e.expires_at = none) (hops : ∀ op ∈ ops, readOrCleanup op = true) :
    lookupKey key ((c.run ops).data) = some e
    ∧ ((c.run ops).get key now).1 = some e.data := by
  suffices h : ∀ (l : List (Op T)) (a : Cache T), a.Wf → lookupKey key a.data = some e →
      (∀ op ∈ l, readOrCleanup op = true) → lookupKey key ((a.run l).data) = some e by
    have hfin := h ops c hwf hl hops
    refine ⟨hfin, ?_⟩
    rw [get_eq_hit _ key now e hfin (by simp [isExpired, hne])]
  intro l
  induction l with
  | nil => intro a _ ha _; exact ha
  | cons op rest ih =>
    intro a hawf ha hl2
    show lookupKey key (((a.step op).run rest).data) = some e
    exact ih (a.step op) (Wf_step a op hawf)
      (lookup_preserved_read_or_cleanup a key e op hawf ha hne
        (hl2 op (List.mem_cons_self _ _)))
      (fun o ho => hl2 o (List.mem_cons_of_mem _ ho))

/-- Claim C7 witness: an entry stored with the default TTL 0 survives
reads and a cleanup sweep, and is still served far in the future. -/
theorem C7_no_expiry_witness :
    lookupKey "x" ((((Cache.new 5 0 : Cache Nat).set "x" 9 0).run
        [Op.get "x" 50, Op.cleanup_expired 100, Op.get "y" 3]).data)
      = some ⟨9, 0, none⟩
    ∧ (((((Cache.new 5 0 : Cache Nat).set "x" 9 0).run
        [Op.get "x" 50, Op.cleanup_expired 100, Op.get "y" 3]).get "x" 1000).1
      = some 9) :=
  C7_no_expiry ((Cache.new 5 0 : Cache Nat).set "x" 9 0) "x" ⟨9, 0, none⟩
    [Op.get "x" 50, Op.cleanup_expired 100, Op.get "y" 3] 1000
    (by decide) (by decide) (by decide) (by decide)

/-- Claim C8: hits, misses and evictions never decrease across any
operation sequence, and clear removes every stored entry while leaving
all three counters at their prior values. -/
theorem C8_counters_monotone (c : Cache T) (ops : List (Op T)) :
    (c.hits ≤ (c.run ops).hits ∧ c.misses ≤ (c.run ops).misses
      ∧ c.evictions ≤ (c.run ops).evictions)
    ∧ ((c.clear).data = [] ∧ (c.clear).hits = c.hits ∧ (c.clear).misses = c.misses
      ∧ (c.clear).evictions = c.evictions) :=
  ⟨run_counters_mono c ops, rfl, rfl, rfl, rfl⟩

/-- Claim C9: remove returns the stored value when the key is present
and nothing when absent, leaves hits, misses and evictions unchanged,
and leaves every other key's entry unchanged. -/
theorem C9_remove_frame (c : Cache T) (key : String) :
    (c.remove key).1 = (lookupKey key c.data).map CacheEntry.data
    ∧ (c.remove key).2.hits = c.hits ∧ (c.remove key).2.misses = c.misses
    ∧ (c.remove key).2.evictions = c.evictions
    ∧ ∀ k, k ≠ key → lookupKey k ((c.remove key).2.data) = lookupKey k c.data := by
  refine ⟨rfl, rfl, rfl, rfl, ?_⟩
  intro k hk
  show lookupKey k (eraseKey key c.data) = lookupKey k c.data
  rw [lookupKey_eraseKey, if_neg hk]

/-- Claim C9 witness: removing "a" leaves "b"'s entry untouched. -/
theorem C9_remove_frame_witness :
    lookupKey "b" (((((Cache.new 2 0 : Cache Nat).set "a" 1 0).set "b" 2 1).remove
        "a").2.data)
      = lookupKey "b" ((((Cache.new 2 0 : Cache Nat).set "a" 1 0).set "b" 2 1).data) :=
  (C9_remove_frame (((Cache.new 2 0 : Cache Nat).set "a" 1 0).set "b" 2 1) "a").2.2.2.2
    "b" (by decide)

/-- Claim C10: with max_entries = 0 every insertion still stores its
entry: after any nonempty insertion sequence the cache holds exactly
one entry, keyed by the most recently inserted key, and evictions
equals the number of insertions whose key differed from the single key
stored just before them (the first insertion, into the empty map,
evicts nothing). -/
theorem C10_zero_capacity (d : Nat) (ins : List (Ins T)) (hne : ins ≠ []) :
    keys ((runInserts (Cache.new 0 d : Cache T) ins).data) = [(ins.getLast hne).key]
    ∧ (runInserts (Cache.new 0 d : Cache T) ins).evictions = countSwitches none ins := by
  cases ins with
  | nil => exact absurd rfl hne
  | cons i rest =>
    have hstep := set_with_ttl_of_empty (Cache.new 0 d : Cache T) i.key i.value
      i.ttl_seconds i.now rfl
    obtain ⟨h1, h2⟩ := runInserts_single rest
      ((Cache.new 0 d : Cache T).set_with_ttl i.key i.value i.ttl_seconds i.now) i.key
      ⟨i.value, i.now, expiresOf (Cache.new 0 d : Cache T) i.ttl_seconds i.now⟩
      rfl hstep.1
    constructor
    · obtain ⟨e, he⟩ := h1
      show keys ((runInserts
          ((Cache.new 0 d : Cache T).set_with_ttl i.key i.value i.ttl_seconds i.now)
          rest).data) = _
      rw [he]
      simp only [keys, List.map_cons, List.map_nil]
      rw [lastKey_cons]
    · show (runInserts
          ((Cache.new 0 d : Cache T).set_with_ttl i.key i.value i.ttl_seconds i.now)
          rest).evictions = _
      rw [h2, hstep.2]
      show (Cache.new 0 d : Cache T).evictions + countSwitches (some i.key) rest
        = countSwitches none (i :: rest)
      simp [Cache.new, countSwitches]

/-- Claim C10 witness: four inserts into a zero-capacity cache leave
exactly the last key stored and two evictions (the repeated "b" insert
is an overwrite). -/
theorem C10_zero_capacity_witness :
    keys ((runInserts (Cache.new 0 7 : Cache Nat)
        [⟨"a", 1, none, 0⟩, ⟨"b", 2, none, 1⟩, ⟨"b", 3, none, 2⟩, ⟨"c", 4, none, 3⟩]).data)
      = ["c"]
    ∧ (runInserts (Cache.new 0 7 : Cache Nat)
        [⟨"a", 1, none, 0⟩, ⟨"b", 2, none, 1⟩, ⟨"b", 3, none, 2⟩, ⟨"c", 4, none, 3⟩]).evictions
      = countSwitches none
          ([⟨"a", 1, none, 0⟩, ⟨"b", 2, none, 1⟩, ⟨"b", 3, none, 2⟩, ⟨"c", 4, none, 3⟩]
            : List (Ins Nat)) :=
  C10_zero_capacity 7
    [⟨"a", 1, none, 0⟩, ⟨"b", 2, none, 1⟩, ⟨"b", 3, none, 2⟩, ⟨"c", 4, none, 3⟩]
    (List.cons_ne_nil _ _)

end Yesman
